import Mathlib

/-!
Verification of the HolaTokens concordance program (HolaTokens.c).

The program reads a text stream line by line, normalizes each line
(alphabetic bytes lowercased, apostrophes kept, everything else turned
into a space), splits it into tokens, and indexes each token under the
polynomial hash of its text.  Each index record stores the token text and
a textual summary of the (1-based) line numbers it occurred on.  At end of
stream the records are sorted by word and printed.

The embedding below models C strings as lists of byte values (`List Nat`),
the uthash table as a list of records in insertion order, and machine
`unsigned int` arithmetic as arithmetic modulo 2^32.
-/

set_option maxHeartbeats 1000000

namespace HolaTokens

/-! ### Byte classification and line normalization (main, lines 162-168) -/

def isalpha (b : Nat) : Bool := (65 ≤ b && b ≤ 90) || (97 ≤ b && b ≤ 122)

def tolower (b : Nat) : Nat := if 65 ≤ b && b ≤ 90 then b + 32 else b

def normByte (b : Nat) : Nat :=
  if !isalpha b && b != 39 then 32
  else if isalpha b then tolower b
  else b

def normalizeLine : List Nat → List Nat
  | [] => []
  | b :: bs => normByte b :: normalizeLine bs

/-! ### Tokenization (strtok_r with delimiter " ", main, lines 172-187)

`runsAux p` collects the maximal runs of bytes satisfying `p`; with
`p = (· ≠ 32)` this is exactly what repeated `strtok_r` with delimiter
`" "` yields on a normalized line. -/

def runsAux (p : Nat → Bool) (cur : List Nat) : List Nat → List (List Nat)
  | [] => if cur = [] then [] else [cur.reverse]
  | b :: bs =>
    if p b then runsAux p (b :: cur) bs
    else if cur = [] then runsAux p [] bs
    else cur.reverse :: runsAux p [] bs

def tokens (l : List Nat) : List (List Nat) := runsAux (fun b => !(b == 32)) [] l

/-- A byte kept by the normalizer: alphabetic or apostrophe. -/
def wordByte (b : Nat) : Bool := isalpha b || b == 39

/-- The maximal runs of alphabetic/apostrophe bytes of a raw line. -/
def maximalRuns (l : List Nat) : List (List Nat) := runsAux wordByte [] l

/-- What normalization does to a byte inside a kept run. -/
def lowerByte (b : Nat) : Nat := if isalpha b then tolower b else b

/-! ### Hashing (hash, lines 111-119): h = 31*h + byte in unsigned int -/

def hash (w : List Nat) : Nat := w.foldl (fun h b => (31 * h + b) % 4294967296) 0

/-! ### Rendering a line number, sprintf " %d" (main, line 180) -/

def decAux : Nat → Nat → List Nat
  | 0, _ => []
  | fuel + 1, n => if n = 0 then [] else decAux fuel (n / 10) ++ [n % 10 + 48]

/-- Decimal digits of `n` as ASCII bytes, most significant first. -/
def decimal (n : Nat) : List Nat := if n = 0 then [48] else decAux n n

/-- The line-number marker `" %d"` catenated onto a line summary. -/
def marker (n : Nat) : List Nat := 32 :: decimal n

/-! ### strstr: substring search -/

def substr (p : List Nat) : List Nat → Bool
  | [] => p.isPrefixOf []
  | b :: bs => p.isPrefixOf (b :: bs) || substr p bs

/-! ### The hash-table record (result_struct, lines 48-53) -/

def LONGEST_WORD_LEN : Nat := 45

def LONGEST_LINE_SUMMARY_LEN : Nat := 16535

structure result_struct where
  key : Nat
  word : List Nat
  line_summary : List Nat
deriving DecidableEq

/-! ### add_result (lines 57-98) -/

/-- The line-summary update of add_result (lines 81-96): append the marker
when the summary is still short enough and does not already contain it. -/
def updateSummary (s m : List Nat) : List Nat :=
  if s.length < LONGEST_LINE_SUMMARY_LEN - 16 then
    if substr m s then s else s ++ m
  else s

/-- The unconditional part of add_result once a record is at hand
(lines 79-96): overwrite the word, then update the line summary. -/
def touch (name line_number : List Nat) (r : result_struct) : result_struct :=
  { r with word := name, line_summary := updateSummary r.line_summary line_number }

/-- HASH_FIND_INT: the record stored under `key`, if any. -/
def findKey (key : Nat) (rs : List result_struct) : Option result_struct :=
  rs.find? (fun r => r.key == key)

/-- In-place mutation of the record HASH_FIND_INT returned: replace the
first record with the given key. -/
def updateFirst (key : Nat) (f : result_struct → result_struct) :
    List result_struct → List result_struct
  | [] => []
  | r :: rs => if r.key == key then f r :: rs else r :: updateFirst key f rs

def add_result (key : Nat) (name : List Nat) (line_number : List Nat)
    (results : List result_struct) : List result_struct :=
  if LONGEST_WORD_LEN < name.length then results
  else
    match findKey key results with
    | none => results ++ [touch name line_number { key := key, word := [], line_summary := [] }]
    | some _ => updateFirst key (touch name line_number) results

/-! ### The main loop (lines 155-192) -/

/-- One token occurrence, as main performs it: hash the token, render the
line number, call add_result. -/
def upsert (w : List Nat) (line_number : Nat) (rs : List result_struct) :
    List result_struct :=
  add_result (hash w) w (marker line_number) rs

def processLine (rs : List result_struct) (line_number : Nat) (line : List Nat) :
    List result_struct :=
  (tokens (normalizeLine line)).foldl (fun acc tok => upsert tok line_number acc) rs

def processFrom (rs : List result_struct) (n : Nat) : List (List Nat) → List result_struct
  | [] => rs
  | line :: rest => processFrom (processLine rs n line) (n + 1) rest

/-- The index built by main from the whole input stream (a list of lines,
each a list of bytes), lines numbered from 1. -/
def processStream (stream : List (List Nat)) : List result_struct := processFrom [] 1 stream

/-! ### Sorting and reporting (lines 121-136, 200-202) -/

/-- strcmp on NUL-terminated byte strings: bytes compare as unsigned
char, comparison stops at the first 0 byte. -/
def strcmp : List Nat → List Nat → Int
  | [], [] => 0
  | [], b :: _ => if b = 0 then 0 else -(b : Int)
  | a :: _, [] => if a = 0 then 0 else (a : Int)
  | a :: as, b :: bs =>
    if a = 0 ∧ b = 0 then 0
    else if a = b then strcmp as bs
    else (a : Int) - (b : Int)

def name_sort (a b : result_struct) : Int := strcmp a.word b.word

/-- HASH_SORT with comparator name_sort: a stable merge sort that keeps
the left element when the comparator is ≤ 0. -/
def sort_by_name (rs : List result_struct) : List result_struct :=
  rs.mergeSort (fun a b => decide (name_sort a b ≤ 0))

/-- print_results: one line `%s%s\n` per record. -/
def print_results (rs : List result_struct) : List (List Nat) :=
  rs.map (fun r => r.word ++ r.line_summary ++ [10])

/-- The complete program: index the stream, sort, print. -/
def mainOutput (stream : List (List Nat)) : List (List Nat) :=
  print_results (sort_by_name (processStream stream))

/-! ### Basic facts about the embedded primitives -/

theorem substr_iff (p s : List Nat) : substr p s = true ↔ p <:+: s := by
  induction s with
  | nil => simp [substr]
  | cons b bs ih => rw [List.infix_cons_iff]; simp [substr, ih]

theorem summary_bound_eq : LONGEST_LINE_SUMMARY_LEN - 16 = 16519 := rfl

theorem updateSummary_cases (s m : List Nat) :
    updateSummary s m = s ∨ (updateSummary s m = s ++ m ∧ s.length < 16519) := by
  unfold updateSummary
  rw [summary_bound_eq]
  by_cases h1 : s.length < 16519
  · rw [if_pos h1]
    by_cases h2 : substr m s = true
    · rw [if_pos h2]; exact Or.inl rfl
    · rw [if_neg h2]; exact Or.inr ⟨rfl, h1⟩
  · rw [if_neg h1]; exact Or.inl rfl

theorem updateSummary_length_le (s m : List Nat) : s.length ≤ (updateSummary s m).length := by
  rcases updateSummary_cases s m with h | ⟨h, _⟩ <;> simp [h]

theorem updateSummary_of_ge (s m : List Nat) (h : 16519 ≤ s.length) : updateSummary s m = s := by
  unfold updateSummary
  rw [summary_bound_eq, if_neg (by omega)]

theorem marker_ne_nil (n : Nat) : marker n ≠ [] := by simp [marker]

theorem updateSummary_nil (m : List Nat) (hm : m ≠ []) : updateSummary [] m = m := by
  cases m with
  | nil => exact absurd rfl hm
  | cons b bs => simp [updateSummary, substr, LONGEST_LINE_SUMMARY_LEN]

theorem infix_updateSummary {p s : List Nat} (m : List Nat) (h : p <:+: s) :
    p <:+: updateSummary s m := by
  rcases updateSummary_cases s m with h' | ⟨h', _⟩ <;> rw [h']
  · exact h
  · exact h.trans (List.prefix_append s m).isInfix

theorem marker_infix_updateSummary (s m : List Nat) (h : s.length < 16519) :
    m <:+: updateSummary s m := by
  unfold updateSummary
  rw [summary_bound_eq, if_pos h]
  by_cases hs : substr m s = true
  · rw [if_pos hs]; exact (substr_iff m s).mp hs
  · rw [if_neg hs]; exact (List.suffix_append s m).isInfix

theorem findKey_append (k : Nat) (rs ls : List result_struct) :
    findKey k (rs ++ ls) = (findKey k rs).or (findKey k ls) := List.find?_append

theorem touch_key (n m : List Nat) (r : result_struct) : (touch n m r).key = r.key := rfl

theorem findKey_updateFirst_self {k : Nat} {r : result_struct}
    (f : result_struct → result_struct) (hf : ∀ x, (f x).key = x.key) :
    ∀ {rs : List result_struct}, findKey k rs = some r →
      findKey k (updateFirst k f rs) = some (f r) := by
  intro rs
  induction rs with
  | nil => intro h; exact absurd h (by simp [findKey])
  | cons x xs ih =>
    intro h
    by_cases hx : (x.key == k) = true
    · have hr : x = r := by
        rw [findKey, List.find?_cons_of_pos (p := fun r : result_struct => r.key == k) _ hx] at h
        exact Option.some.inj h
      subst hr
      have hfx : ((f x).key == k) = true := by rw [hf x]; exact hx
      rw [updateFirst, if_pos hx, findKey, List.find?_cons_of_pos (p := fun r : result_struct => r.key == k) _ hfx]
    · have h' : findKey k xs = some r := by
        rw [findKey, List.find?_cons_of_neg (p := fun r : result_struct => r.key == k) _ hx] at h
        exact h
      rw [updateFirst, if_neg hx, findKey, List.find?_cons_of_neg (p := fun r : result_struct => r.key == k) _ hx]
      exact ih h'

theorem findKey_updateFirst_ne {k k' : Nat} (hne : ¬ k' = k)
    (f : result_struct → result_struct) (hf : ∀ x, (f x).key = x.key) :
    ∀ (rs : List result_struct), findKey k (updateFirst k' f rs) = findKey k rs := by
  intro rs
  induction rs with
  | nil => rfl
  | cons x xs ih =>
    by_cases hx : (x.key == k') = true
    · have hxe : x.key = k' := eq_of_beq hx
      have hxk : (x.key == k) = false := by
        rw [hxe]; exact beq_eq_false_iff_ne.mpr hne
      have hfxk : ((f x).key == k) = false := by rw [hf x]; exact hxk
      rw [updateFirst, if_pos hx, findKey, findKey,
        List.find?_cons_of_neg (p := fun r : result_struct => r.key == k) _ (by simp [hfxk]), List.find?_cons_of_neg (p := fun r : result_struct => r.key == k) _ (by simp [hxk])]
    · rw [updateFirst, if_neg hx]
      by_cases hk : (x.key == k) = true
      · rw [findKey, findKey, List.find?_cons_of_pos (p := fun r : result_struct => r.key == k) _ hk, List.find?_cons_of_pos (p := fun r : result_struct => r.key == k) _ hk]
      · rw [findKey, findKey, List.find?_cons_of_neg (p := fun r : result_struct => r.key == k) _ hk, List.find?_cons_of_neg (p := fun r : result_struct => r.key == k) _ hk]
        exact ih

theorem mem_updateFirst {k : Nat} {f : result_struct → result_struct} {x : result_struct} :
    ∀ {rs : List result_struct}, x ∈ updateFirst k f rs → x ∈ rs ∨ ∃ y ∈ rs, x = f y := by
  intro rs
  induction rs with
  | nil => intro h; simp [updateFirst] at h
  | cons r rs ih =>
    intro hx
    by_cases hr : (r.key == k) = true
    · rw [updateFirst, if_pos hr] at hx
      rcases List.mem_cons.mp hx with h | h
      · exact Or.inr ⟨r, List.mem_cons_self r rs, h⟩
      · exact Or.inl (List.mem_cons_of_mem _ h)
    · rw [updateFirst, if_neg hr] at hx
      rcases List.mem_cons.mp hx with h | h
      · exact Or.inl (h ▸ List.mem_cons_self r rs)
      · rcases ih h with h' | ⟨y, hy, hxy⟩
        · exact Or.inl (List.mem_cons_of_mem _ h')
        · exact Or.inr ⟨y, List.mem_cons_of_mem _ hy, hxy⟩

theorem add_result_reject {name : List Nat} (k : Nat) (m : List Nat)
    (rs : List result_struct) (h : LONGEST_WORD_LEN < name.length) :
    add_result k name m rs = rs := by
  simp [add_result, h]

theorem add_result_none {name : List Nat} {k : Nat} {rs : List result_struct} (m : List Nat)
    (h1 : ¬ LONGEST_WORD_LEN < name.length) (h2 : findKey k rs = none) :
    add_result k name m rs =
      rs ++ [{ key := k, word := name, line_summary := updateSummary [] m }] := by
  simp [add_result, h1, h2, touch]

theorem add_result_some {name : List Nat} {k : Nat} {rs : List result_struct}
    {r : result_struct} (m : List Nat)
    (h1 : ¬ LONGEST_WORD_LEN < name.length) (h2 : findKey k rs = some r) :
    add_result k name m rs = updateFirst k (touch name m) rs := by
  simp [add_result, h1, h2]

/-- How one add_result call can change the record stored under an unrelated
or related key: the record survives and its summary is unchanged, or gets
the incoming marker appended (the latter only while it is short enough). -/
theorem findKey_add_result_track {key : Nat} {rs : List result_struct} {r : result_struct}
    (h : findKey key rs = some r) (k : Nat) (name m : List Nat) :
    ∃ r', findKey key (add_result k name m rs) = some r' ∧ r'.key = r.key ∧
      (r'.line_summary = r.line_summary ∨
        (r'.line_summary = r.line_summary ++ m ∧ r.line_summary.length < 16519)) := by
  by_cases hlen : LONGEST_WORD_LEN < name.length
  · exact ⟨r, by rw [add_result_reject _ _ _ hlen]; exact h, rfl, Or.inl rfl⟩
  · by_cases hk : k = key
    · subst hk
      rw [add_result_some m hlen h]
      refine ⟨touch name m r, findKey_updateFirst_self (touch name m) (fun x => rfl) h, rfl, ?_⟩
      rcases updateSummary_cases r.line_summary m with h' | ⟨h', hlt⟩
      · exact Or.inl h'
      · exact Or.inr ⟨h', hlt⟩
    · cases hfind : findKey k rs with
      | none =>
        rw [add_result_none m hlen hfind, findKey_append]
        exact ⟨r, by rw [h]; rfl, rfl, Or.inl rfl⟩
      | some r2 =>
        rw [add_result_some m hlen hfind,
          findKey_updateFirst_ne hk (touch name m) (fun x => rfl)]
        exact ⟨r, h, rfl, Or.inl rfl⟩

/-! ### Lifting a preserved property through the main loop -/

theorem foldl_upsert_preserve {P : List result_struct → Prop}
    (hstep : ∀ rs k name m, P rs → P (add_result k name m rs)) :
    ∀ (toks : List (List Nat)) (rs : List result_struct) (n : Nat),
      P rs → P (toks.foldl (fun acc tok => upsert tok n acc) rs) := by
  intro toks
  induction toks with
  | nil => intro rs n h; exact h
  | cons t ts ih => intro rs n h; exact ih _ n (hstep _ _ _ _ h)

theorem processFrom_preserve {P : List result_struct → Prop}
    (hstep : ∀ rs k name m, P rs → P (add_result k name m rs)) :
    ∀ (stream : List (List Nat)) (rs : List result_struct) (n : Nat),
      P rs → P (processFrom rs n stream) := by
  intro stream
  induction stream with
  | nil => intro rs n h; exact h
  | cons line rest ih =>
    intro rs n h
    exact ih _ _ (foldl_upsert_preserve hstep _ _ _ h)

/-! ### A record, once it holds a marker (or is full), keeps it -/

theorem marker_prop_preserved (key : Nat) (mk : List Nat) :
    ∀ (rs : List result_struct) (k : Nat) (name m : List Nat),
      (∃ r, findKey key rs = some r ∧
        (mk <:+: r.line_summary ∨ 16519 ≤ r.line_summary.length)) →
      ∃ r, findKey key (add_result k name m rs) = some r ∧
        (mk <:+: r.line_summary ∨ 16519 ≤ r.line_summary.length) := by
  intro rs k name m ⟨r, hr, hsum⟩
  rcases findKey_add_result_track hr k name m with ⟨r', hr', hkey, hcase⟩
  refine ⟨r', hr', ?_⟩
  rcases hcase with hceq | ⟨happ, hlt⟩
  · rw [hceq]; exact hsum
  · rcases hsum with hinf | hge
    · rw [happ]; exact Or.inl (hinf.trans (List.prefix_append _ _).isInfix)
    · right; rw [happ]; rw [List.length_append]; omega

theorem upsert_establishes {w : List Nat} (n : Nat) (rs : List result_struct)
    (hw : w.length ≤ 45) :
    ∃ r, findKey (hash w) (upsert w n rs) = some r ∧
      (marker n <:+: r.line_summary ∨ 16519 ≤ r.line_summary.length) := by
  have hlen : ¬ LONGEST_WORD_LEN < w.length := by
    rw [LONGEST_WORD_LEN]; omega
  cases hfind : findKey (hash w) rs with
  | none =>
    refine ⟨⟨hash w, w, updateSummary [] (marker n)⟩, ?_, ?_⟩
    · rw [upsert, add_result_none _ hlen hfind, findKey_append, hfind]
      have hnone : ∀ z : Option result_struct, Option.or none z = z := fun z => rfl
      rw [hnone, findKey,
        List.find?_cons_of_pos (p := fun r : result_struct => r.key == hash w) _ (by simp)]
    · rw [updateSummary_nil _ (marker_ne_nil n)]
      exact Or.inl List.infix_rfl
  | some r =>
    rw [upsert, add_result_some _ hlen hfind]
    refine ⟨touch w (marker n) r,
      findKey_updateFirst_self (touch w (marker n)) (fun x => rfl) hfind, ?_⟩
    by_cases hlen2 : r.line_summary.length < 16519
    · exact Or.inl (marker_infix_updateSummary _ _ hlen2)
    · right
      show 16519 ≤ (updateSummary r.line_summary (marker n)).length
      calc 16519 ≤ r.line_summary.length := by omega
        _ ≤ _ := updateSummary_length_le _ _

theorem processLine_establishes {w : List Nat} (hw : w.length ≤ 45) :
    ∀ (toks : List (List Nat)) (rs : List result_struct) (n : Nat), w ∈ toks →
      ∃ r, findKey (hash w) (toks.foldl (fun acc tok => upsert tok n acc) rs) = some r ∧
        (marker n <:+: r.line_summary ∨ 16519 ≤ r.line_summary.length) := by
  intro toks
  induction toks with
  | nil => intro rs n h; exact absurd h (List.not_mem_nil w)
  | cons t ts ih =>
    intro rs n hmem
    rcases List.mem_cons.mp hmem with h | h
    · subst h
      exact foldl_upsert_preserve (marker_prop_preserved (hash w) (marker n)) ts _ n
        (upsert_establishes n rs hw)
    · exact ih _ n h

theorem processFrom_establishes {w : List Nat} (hw : w.length ≤ 45) :
    ∀ (stream : List (List Nat)) (i : Nat) (line : List Nat)
      (rs : List result_struct) (n : Nat),
      stream[i]? = some line → w ∈ tokens (normalizeLine line) →
      ∃ r, findKey (hash w) (processFrom rs n stream) = some r ∧
        (marker (n + i) <:+: r.line_summary ∨ 16519 ≤ r.line_summary.length) := by
  intro stream
  induction stream with
  | nil => intro i line rs n h; simp at h
  | cons l ls ih =>
    intro i line rs n hline hmem
    cases i with
    | zero =>
      rw [List.getElem?_cons_zero] at hline
      have hl : l = line := Option.some.inj hline
      subst hl
      show ∃ r, findKey (hash w) (processFrom (processLine rs n l) (n + 1) ls) = some r ∧
        (marker (n + 0) <:+: r.line_summary ∨ 16519 ≤ r.line_summary.length)
      rw [Nat.add_zero]
      exact processFrom_preserve (marker_prop_preserved (hash w) (marker n)) ls _ _
        (processLine_establishes hw _ rs n hmem)
    | succ j =>
      rw [List.getElem?_cons_succ] at hline
      have harith : n + 1 + j = n + (j + 1) := by omega
      show ∃ r, findKey (hash w) (processFrom (processLine rs n l) (n + 1) ls) = some r ∧
        (marker (n + (j + 1)) <:+: r.line_summary ∨ 16519 ≤ r.line_summary.length)
      rw [← harith]
      exact ih j line _ (n + 1) hline hmem

/-! ### Normalization + strtok vs. maximal runs of the raw line -/

theorem wordByte_normByte (b : Nat) (h : wordByte b = true) : normByte b = lowerByte b := by
  by_cases ha : isalpha b = true
  · simp [normByte, lowerByte, ha]
  · have hb : b = 39 := by
      have := h
      rw [wordByte] at this
      simp [ha] at this
      exact this
    subst hb
    simp [normByte, lowerByte, isalpha]

theorem not_wordByte_normByte (b : Nat) (h : wordByte b = false) : normByte b = 32 := by
  rw [wordByte] at h
  simp only [Bool.or_eq_false_iff] at h
  obtain ⟨ha, hb⟩ := h
  have hb' : ¬ b = 39 := by simpa using hb
  simp [normByte, ha, hb']

theorem lowerByte_ne_32 (b : Nat) (h : wordByte b = true) : ¬ lowerByte b = 32 := by
  by_cases ha : isalpha b = true
  · have hr : (65 ≤ b ∧ b ≤ 90) ∨ (97 ≤ b ∧ b ≤ 122) := by
      simpa [isalpha, Bool.or_eq_true, Bool.and_eq_true, decide_eq_true_eq] using ha
    simp only [lowerByte, ha, if_true, tolower]
    by_cases hub : (65 ≤ b && b ≤ 90) = true
    · rw [if_pos hub]; omega
    · rw [if_neg hub]
      have hnr : ¬ (65 ≤ b ∧ b ≤ 90) := by
        simpa [Bool.and_eq_true, decide_eq_true_eq] using hub
      omega
  · have hb : b = 39 := by
      have := h
      rw [wordByte] at this
      simp [ha] at this
      exact this
    subst hb
    decide

theorem runsAux_norm : ∀ (l cur : List Nat),
    runsAux (fun b => !(b == 32)) (cur.map lowerByte) (normalizeLine l) =
      (runsAux wordByte cur l).map (fun r => r.map lowerByte) := by
  intro l
  induction l with
  | nil =>
    intro cur
    by_cases hc : cur = []
    · subst hc; rfl
    · have hc' : cur.map lowerByte ≠ [] := by simpa using hc
      rw [normalizeLine]
      rw [runsAux, runsAux, if_neg hc', if_neg hc]
      simp
  | cons b bs ih =>
    intro cur
    rw [normalizeLine]
    by_cases hw : wordByte b = true
    · have h1 : normByte b = lowerByte b := wordByte_normByte b hw
      have h2 : ((fun b => !(b == 32)) (normByte b)) = true := by
        rw [h1]
        simp [lowerByte_ne_32 b hw]
      rw [runsAux, if_pos h2, runsAux, if_pos hw]
      have h3 : normByte b :: cur.map lowerByte = (b :: cur).map lowerByte := by
        rw [h1]; rfl
      rw [h3]
      exact ih (b :: cur)
    · have hwf : wordByte b = false := Bool.not_eq_true _ ▸ (Bool.eq_false_iff.mpr hw)
      have h1 : normByte b = 32 := not_wordByte_normByte b hwf
      have h2 : ((fun b => !(b == 32)) (normByte b)) = false := by rw [h1]; simp
      have h2' : ¬ ((fun b => !(b == 32)) (normByte b)) = true := by rw [h2]; simp
      rw [runsAux, if_neg h2', runsAux, if_neg (by rw [hwf]; simp : ¬ wordByte b = true)]
      have htail := ih []
      simp only [List.map_nil] at htail
      by_cases hc : cur = []
      · subst hc
        simp only [List.map_nil, if_true]
        exact htail
      · have hc' : cur.map lowerByte ≠ [] := by simpa using hc
        rw [if_neg hc', if_neg hc]
        rw [List.map_cons, ← List.map_reverse, htail]

theorem tokens_norm (l : List Nat) :
    tokens (normalizeLine l) = (maximalRuns l).map (fun r => r.map lowerByte) := by
  have h := runsAux_norm l []
  simpa [tokens, maximalRuns] using h

/-! ### No oversized word is ever stored -/

theorem add_result_words_le (k : Nat) (name m : List Nat) (rs : List result_struct)
    (h : ∀ r ∈ rs, r.word.length ≤ 45) :
    ∀ r ∈ add_result k name m rs, r.word.length ≤ 45 := by
  by_cases hlen : LONGEST_WORD_LEN < name.length
  · rw [add_result_reject _ _ _ hlen]; exact h
  · have hname : name.length ≤ 45 := by
      rw [LONGEST_WORD_LEN] at hlen; omega
    cases hfind : findKey k rs with
    | none =>
      rw [add_result_none _ hlen hfind]
      intro r hr
      rcases List.mem_append.mp hr with h' | h'
      · exact h r h'
      · have heq : r = ⟨k, name, updateSummary [] m⟩ := by simpa using h'
        rw [heq]; exact hname
    | some r0 =>
      rw [add_result_some _ hlen hfind]
      intro r hr
      rcases mem_updateFirst hr with h' | ⟨y, hy, hxy⟩
      · exact h r h'
      · rw [hxy]; exact hname

/-! ### Idempotence machinery -/

theorem substr_append_self (s m : List Nat) : substr m (s ++ m) = true :=
  (substr_iff _ _).mpr (List.suffix_append s m).isInfix

theorem updateSummary_idem (s m : List Nat) :
    updateSummary (updateSummary s m) m = updateSummary s m := by
  rcases updateSummary_cases s m with h | ⟨h, hlt⟩
  · rw [h]; exact h
  · rw [h]
    unfold updateSummary
    rw [summary_bound_eq]
    by_cases h3 : (s ++ m).length < 16519
    · rw [if_pos h3, if_pos (substr_append_self s m)]
    · rw [if_neg h3]

theorem updateFirst_append_left {k : Nat} {f : result_struct → result_struct}
    {rs : List result_struct} (h : ∀ r ∈ rs, (r.key == k) = false)
    (ls : List result_struct) :
    updateFirst k f (rs ++ ls) = rs ++ updateFirst k f ls := by
  induction rs with
  | nil => rfl
  | cons x xs ih =>
    rw [List.cons_append, updateFirst,
      if_neg (by simp [h x (List.mem_cons_self x xs)]), List.cons_append,
      ih (fun r hr => h r (List.mem_cons_of_mem x hr))]

theorem updateFirst_singleton {k : Nat} {f : result_struct → result_struct}
    {r : result_struct} (h : (r.key == k) = true) :
    updateFirst k f [r] = [f r] := by
  rw [updateFirst, if_pos h]

theorem updateFirst_comp {k : Nat} {f g : result_struct → result_struct}
    (hg : ∀ x, (g x).key = x.key) :
    ∀ rs, updateFirst k f (updateFirst k g rs) = updateFirst k (fun r => f (g r)) rs := by
  intro rs
  induction rs with
  | nil => rfl
  | cons x xs ih =>
    by_cases hx : (x.key == k) = true
    · have hgx : ((g x).key == k) = true := by rw [hg x]; exact hx
      rw [updateFirst, if_pos hx, updateFirst, if_pos hgx, updateFirst, if_pos hx]
    · rw [updateFirst, if_neg hx, updateFirst, if_neg hx, updateFirst, if_neg hx, ih]

theorem findKey_add_result_ne {key k : Nat} (hk : ¬ k = key) (name m : List Nat)
    (rs : List result_struct) :
    findKey key (add_result k name m rs) = findKey key rs := by
  by_cases hlen : LONGEST_WORD_LEN < name.length
  · rw [add_result_reject _ _ _ hlen]
  · cases hfind : findKey k rs with
    | none =>
      rw [add_result_none _ hlen hfind, findKey_append]
      have hone : findKey key [⟨k, name, updateSummary [] m⟩] = none := by
        rw [findKey,
          List.find?_cons_of_neg (p := fun r : result_struct => r.key == key) _ (by simp [hk])]
        rfl
      rw [hone]
      cases findKey key rs <;> rfl
    | some r =>
      rw [add_result_some _ hlen hfind,
        findKey_updateFirst_ne hk (touch name m) (fun x => rfl)]

theorem findKey_add_result_self {k : Nat} {name : List Nat} (m : List Nat)
    (rs : List result_struct) (hlen : ¬ LONGEST_WORD_LEN < name.length) :
    ∃ r', findKey k (add_result k name m rs) = some r' ∧ r'.word = name := by
  cases hfind : findKey k rs with
  | none =>
    refine ⟨⟨k, name, updateSummary [] m⟩, ?_, rfl⟩
    rw [add_result_none m hlen hfind]
    rw [findKey_append, hfind]
    have hnone : ∀ z : Option result_struct, Option.or none z = z := fun z => rfl
    rw [hnone, findKey,
      List.find?_cons_of_pos (p := fun r : result_struct => r.key == k) _ (by simp)]
  | some r =>
    refine ⟨touch name m r, ?_, rfl⟩
    rw [add_result_some m hlen hfind]
    exact findKey_updateFirst_self (touch name m) (fun x => rfl) hfind

/-! ### The spec-side normalizer classification (§4.1), for claim C9 -/

/-- Stated from the spec's words: alphabetic bytes become their lowercase
form, the apostrophe passes through, every other byte becomes a space. -/
def specNormByte (b : Nat) : Nat :=
  if (65 ≤ b ∧ b ≤ 90) ∨ (97 ≤ b ∧ b ≤ 122) then
    (if 65 ≤ b ∧ b ≤ 90 then b + 32 else b)
  else if b = 39 then b else 32

theorem normByte_eq_spec (b : Nat) : normByte b = specNormByte b := by
  unfold normByte specNormByte isalpha tolower
  by_cases h1 : 65 ≤ b ∧ b ≤ 90
  · simp [h1]
  · by_cases h2 : 97 ≤ b ∧ b ≤ 122
    · simp [h1, h2]
    · by_cases h3 : b = 39
      · simp [h1, h2, h3]
      · simp [h1, h2, h3]

/-! ### Claim theorems -/

/-- C4: for every index state, word of length at most 45 and line number,
performing the upsert twice in succession leaves the state (in particular
the record's lineSummary) identical to performing it once. -/
theorem c4_upsert_idempotent (rs : List result_struct) (w : List Nat) (n : Nat)
    (hw : w.length ≤ 45) :
    upsert w n (upsert w n rs) = upsert w n rs := by
  have hlen : ¬ LONGEST_WORD_LEN < w.length := by rw [LONGEST_WORD_LEN]; omega
  cases hfind : findKey (hash w) rs with
  | none =>
    rw [upsert, upsert, add_result_none _ hlen hfind]
    have hall : ∀ r ∈ rs, (r.key == hash w) = false := by
      intro r hr
      have hne := List.find?_eq_none.mp hfind r hr
      simpa using hne
    have hnew : findKey (hash w)
        (rs ++ [⟨hash w, w, updateSummary [] (marker n)⟩]) =
          some ⟨hash w, w, updateSummary [] (marker n)⟩ := by
      rw [findKey_append, hfind]
      have hnone : ∀ z : Option result_struct, Option.or none z = z := fun z => rfl
      rw [hnone, findKey,
        List.find?_cons_of_pos (p := fun r : result_struct => r.key == hash w) _
          (by simp)]
    rw [add_result_some _ hlen hnew, updateFirst_append_left hall,
      updateFirst_singleton (by simp)]
    have hrec : touch w (marker n) (⟨hash w, w, updateSummary [] (marker n)⟩ : result_struct) =
        ⟨hash w, w, updateSummary [] (marker n)⟩ := by
      simp only [touch]
      rw [updateSummary_idem]
    rw [hrec]
  | some r =>
    rw [upsert, upsert, add_result_some _ hlen hfind]
    have h2 : findKey (hash w) (updateFirst (hash w) (touch w (marker n)) rs) =
        some (touch w (marker n) r) :=
      findKey_updateFirst_self (touch w (marker n)) (fun x => rfl) hfind
    rw [add_result_some _ hlen h2, updateFirst_comp (g := touch w (marker n)) (fun x => rfl)]
    have hfun : (fun x => touch w (marker n) (touch w (marker n) x)) =
        touch w (marker n) := by
      funext x
      simp only [touch]
      rw [updateSummary_idem]
    rw [hfun]

theorem c4_upsert_idempotent_witness :
    ([97, 98].length ≤ 45) ∧
      upsert [97, 98] 7 (upsert [97, 98] 7 [⟨5, [99], [32, 49]⟩]) =
        upsert [97, 98] 7 [⟨5, [99], [32, 49]⟩] :=
  ⟨by decide, c4_upsert_idempotent [⟨5, [99], [32, 49]⟩] [97, 98] 7 (by decide)⟩

/-- C6: an upsert whose key is absent creates a fresh record keyed by the
hash of the word, carrying the word itself, whose line summary (initially
empty) ends up holding exactly the one marker for the line. -/
theorem c6_new_record (rs : List result_struct) (w : List Nat) (n : Nat)
    (hw : w.length ≤ 45) (hfind : findKey (hash w) rs = none) :
    upsert w n rs = rs ++ [{ key := hash w, word := w, line_summary := marker n }] := by
  have hlen : ¬ LONGEST_WORD_LEN < w.length := by rw [LONGEST_WORD_LEN]; omega
  rw [upsert, add_result_none _ hlen hfind]
  show rs ++ [⟨hash w, w, updateSummary [] (marker n)⟩] = _
  rw [updateSummary_nil _ (marker_ne_nil n)]

theorem c6_new_record_witness :
    ([100, 111, 103, 115].length ≤ 45) ∧
      (findKey (hash [100, 111, 103, 115]) [] = none) ∧
      upsert [100, 111, 103, 115] 1 [] =
        [{ key := hash [100, 111, 103, 115], word := [100, 111, 103, 115],
           line_summary := marker 1 }] :=
  ⟨by decide, rfl, c6_new_record [] [100, 111, 103, 115] 1 (by decide) rfl⟩

/-- C5: a word longer than 45 bytes makes upsert a no-op (state unchanged,
no error), and consequently every record ever reported has a word of at
most 45 bytes. -/
theorem c5_oversize_rejected (w : List Nat) (n : Nat) (rs : List result_struct)
    (stream : List (List Nat)) (hw : 45 < w.length) :
    upsert w n rs = rs ∧
      ∀ r ∈ sort_by_name (processStream stream), r.word.length ≤ 45 := by
  constructor
  · exact add_result_reject _ _ _ (by rw [LONGEST_WORD_LEN]; exact hw)
  · intro r hr
    rw [sort_by_name] at hr
    have hmem : r ∈ processStream stream := List.mem_mergeSort.mp hr
    have hinv : ∀ x ∈ processStream stream, x.word.length ≤ 45 := by
      refine processFrom_preserve
        (P := fun rs => ∀ x ∈ rs, x.word.length ≤ 45) ?_ stream [] 1 ?_
      · intro rs' k name m h
        exact add_result_words_le k name m rs' h
      · intro x hx
        exact absurd hx (List.not_mem_nil x)
    exact hinv r hmem

theorem c5_oversize_rejected_witness :
    (45 < (List.replicate 46 97).length) ∧
      (upsert (List.replicate 46 97) 1 [] = [] ∧
        ∀ r ∈ sort_by_name (processStream [List.replicate 46 97]), r.word.length ≤ 45) :=
  ⟨by simp, c5_oversize_rejected (List.replicate 46 97) 1 [] [List.replicate 46 97]
    (by simp)⟩

/-- C7: once a record's rendered line summary has reached the truncation
threshold 16535 - 16 = 16519, no later upsert changes that summary for the
rest of the run, while the record stays indexed and its report line shows
exactly the markers accumulated before truncation. -/
theorem c7_truncation_freeze (rs : List result_struct) (key : Nat) (r : result_struct)
    (h : findKey key rs = some r) (hlen : 16519 ≤ r.line_summary.length)
    (stream : List (List Nat)) (n : Nat) :
    ∃ r', findKey key (processFrom rs n stream) = some r' ∧
      r'.line_summary = r.line_summary ∧
      r'.word ++ r'.line_summary ++ [10] ∈
        print_results (sort_by_name (processFrom rs n stream)) := by
  have hP : ∃ x, findKey key (processFrom rs n stream) = some x ∧
      x.line_summary = r.line_summary := by
    refine processFrom_preserve
      (P := fun rs' => ∃ x, findKey key rs' = some x ∧ x.line_summary = r.line_summary)
      ?_ stream rs n ⟨r, h, rfl⟩
    rintro rs' k name m ⟨x, hx, hxs⟩
    rcases findKey_add_result_track hx k name m with ⟨x', hx', hkey, hcase⟩
    refine ⟨x', hx', ?_⟩
    rcases hcase with hceq | ⟨happ, hlt⟩
    · rw [hceq, hxs]
    · exfalso
      rw [hxs] at hlt
      omega
  obtain ⟨r', hr', hsum⟩ := hP
  refine ⟨r', hr', hsum, ?_⟩
  have hmem : r' ∈ processFrom rs n stream := List.mem_of_find?_eq_some hr'
  have hmem2 : r' ∈ sort_by_name (processFrom rs n stream) := by
    rw [sort_by_name]
    exact List.mem_mergeSort.mpr hmem
  exact List.mem_map_of_mem _ hmem2

theorem c7_truncation_freeze_witness :
    (findKey 5 [⟨5, [97], List.replicate 16519 48⟩] =
        some ⟨5, [97], List.replicate 16519 48⟩) ∧
      (16519 ≤ (result_struct.line_summary ⟨5, [97], List.replicate 16519 48⟩).length) ∧
      ∃ r', findKey 5 (processFrom [⟨5, [97], List.replicate 16519 48⟩] 1 [[97]]) = some r' ∧
        r'.line_summary = result_struct.line_summary ⟨5, [97], List.replicate 16519 48⟩ ∧
        r'.word ++ r'.line_summary ++ [10] ∈
          print_results (sort_by_name (processFrom [⟨5, [97], List.replicate 16519 48⟩] 1 [[97]])) := by
  have hlen : 16519 ≤ ((⟨5, [97], List.replicate 16519 48⟩ : result_struct).line_summary).length := by
    show 16519 ≤ (List.replicate 16519 48).length
    rw [List.length_replicate]
  have hfind : findKey 5 [(⟨5, [97], List.replicate 16519 48⟩ : result_struct)] =
      some ⟨5, [97], List.replicate 16519 48⟩ := by
    rw [findKey, List.find?_cons_of_pos (p := fun r : result_struct => r.key == 5) _ (by simp)]
  exact ⟨hfind, hlen,
    c7_truncation_freeze _ 5 ⟨5, [97], List.replicate 16519 48⟩ hfind hlen [[97]] 1⟩

def strcpyWrittenBytes (name : List Nat) : Nat := name.length + 1

/-- C10: a token of exactly 45 bytes passes add_result's length guard
(which rejects only strictly more than 45), yet strcpy writes
length + 1 = 46 bytes including the NUL terminator into the 45-byte word
field - one byte past its end - and the record is really created. -/
theorem c10_boundary_overflow (w : List Nat) (h : w.length = 45) :
    ¬ LONGEST_WORD_LEN < w.length ∧
      LONGEST_WORD_LEN < strcpyWrittenBytes w ∧
      upsert w 1 [] ≠ [] := by
  have hlen : ¬ LONGEST_WORD_LEN < w.length := by rw [LONGEST_WORD_LEN, h]; omega
  refine ⟨hlen, by rw [LONGEST_WORD_LEN, strcpyWrittenBytes, h]; omega, ?_⟩
  have hn : findKey (hash w) ([] : List result_struct) = none := rfl
  rw [upsert, add_result_none _ hlen hn]
  simp

theorem c10_boundary_overflow_witness :
    ((List.replicate 45 97).length = 45) ∧
      (¬ LONGEST_WORD_LEN < (List.replicate 45 97).length ∧
        LONGEST_WORD_LEN < strcpyWrittenBytes (List.replicate 45 97) ∧
        upsert (List.replicate 45 97) 1 [] ≠ []) :=
  ⟨by simp, c10_boundary_overflow (List.replicate 45 97) (by simp)⟩

/-- C9: normalization maps each byte independently per the spec's
classification (alphabetic lowercased, apostrophe unchanged, all else a
space) and preserves the byte count of the line. -/
theorem c9_normalizer (l : List Nat) :
    (normalizeLine l).length = l.length ∧
      ∀ i : Nat, (normalizeLine l)[i]? = (l[i]?).map specNormByte := by
  induction l with
  | nil => exact ⟨rfl, fun i => by simp [normalizeLine]⟩
  | cons b bs ih =>
    refine ⟨?_, ?_⟩
    · rw [normalizeLine, List.length_cons, List.length_cons, ih.1]
    · intro i
      cases i with
      | zero =>
        rw [normalizeLine]
        simp [normByte_eq_spec]
      | succ j =>
        rw [normalizeLine]
        simp [ih.2 j]

/-! ### Claim C8 machinery: the word field tracks the last accepted insert -/

def upsertAll (ops : List (List Nat × Nat)) (rs : List result_struct) : List result_struct :=
  ops.foldl (fun acc p => upsert p.1 p.2 acc) rs

/-- The text of the most recently seen occurrence whose hash is the given
key, among occurrences short enough to be accepted. -/
def lastKeyed (k : Nat) (ops : List (List Nat × Nat)) : Option (List Nat) :=
  ((ops.map Prod.fst).reverse).find? (fun w => decide (w.length ≤ 45) && (hash w == k))

theorem upsertAll_append (ops : List (List Nat × Nat)) (w : List Nat) (n : Nat)
    (rs : List result_struct) :
    upsertAll (ops ++ [(w, n)]) rs = upsert w n (upsertAll ops rs) := by
  rw [upsertAll, List.foldl_append]
  rfl

theorem lastKeyed_append (k : Nat) (ops : List (List Nat × Nat)) (w : List Nat) (n : Nat) :
    lastKeyed k (ops ++ [(w, n)]) =
      if (decide (w.length ≤ 45) && (hash w == k)) = true then some w
      else lastKeyed k ops := by
  rw [lastKeyed, List.map_append, List.reverse_append]
  show List.find? _ (w :: (ops.map Prod.fst).reverse) = _
  by_cases hc : (decide (w.length ≤ 45) && (hash w == k)) = true
  · rw [List.find?_cons_of_pos
      (p := fun w : List Nat => decide (w.length ≤ 45) && (hash w == k)) _ hc, if_pos hc]
  · rw [List.find?_cons_of_neg
      (p := fun w : List Nat => decide (w.length ≤ 45) && (hash w == k)) _ hc, if_neg hc]
    rfl

/-- C8: an upsert on an existing key overwrites the stored word with the
incoming token (even on a hash collision), so after any run of upserts a
record's word is the most recently seen occurrence hashing to its key. -/
theorem c8_last_writer_wins :
    (∀ (rs : List result_struct) (r : result_struct) (w : List Nat) (n : Nat),
        w.length ≤ 45 → findKey (hash w) rs = some r →
        ∃ r', findKey (hash w) (upsert w n rs) = some r' ∧ r'.word = w) ∧
      ∀ (ops : List (List Nat × Nat)) (k : Nat) (r : result_struct),
        findKey k (upsertAll ops []) = some r → lastKeyed k ops = some r.word := by
  constructor
  · intro rs r w n hw hfind
    have hlen : ¬ LONGEST_WORD_LEN < w.length := by rw [LONGEST_WORD_LEN]; omega
    exact findKey_add_result_self (marker n) rs hlen
  · intro ops
    induction ops using List.reverseRecOn with
    | nil =>
      intro k r h
      exact absurd h (by rw [upsertAll]; simp [findKey])
    | append_singleton ops p ih =>
      obtain ⟨w, n⟩ := p
      intro k r h
      rw [upsertAll_append] at h
      rw [lastKeyed_append]
      by_cases hacc : w.length ≤ 45
      · by_cases hk : hash w = k
        · subst hk
          have hc : (decide (w.length ≤ 45) && (hash w == hash w)) = true := by
            simp [hacc]
          rw [if_pos hc]
          have hlen : ¬ LONGEST_WORD_LEN < w.length := by rw [LONGEST_WORD_LEN]; omega
          obtain ⟨r', hr', hword⟩ :=
            findKey_add_result_self (k := hash w) (marker n) (upsertAll ops []) hlen
          rw [upsert] at h
          rw [h] at hr'
          have hre : r = r' := Option.some.inj hr'
          rw [← hword, hre]
        · have hc : ¬ (decide (w.length ≤ 45) && (hash w == k)) = true := by
            simp [hk]
          rw [if_neg hc]
          rw [upsert, findKey_add_result_ne hk w (marker n) _] at h
          exact ih k r h
      · have hc : ¬ (decide (w.length ≤ 45) && (hash w == k)) = true := by
          simp [hacc]
        rw [if_neg hc]
        have hlen : LONGEST_WORD_LEN < w.length := by rw [LONGEST_WORD_LEN]; omega
        rw [upsert, add_result_reject _ _ _ hlen] at h
        exact ih k r h

theorem c8_last_writer_wins_witness :
    (∃ r', findKey (hash [97]) (upsert [97] 2 [⟨97, [99], [32, 49]⟩]) = some r' ∧
        r'.word = [97]) ∧
      lastKeyed 97 [([97], 1)] =
        some (result_struct.word ⟨97, [97], [32, 49]⟩) :=
  ⟨c8_last_writer_wins.1 [⟨97, [99], [32, 49]⟩] ⟨97, [99], [32, 49]⟩ [97] 2
      (by decide) (by decide),
    c8_last_writer_wins.2 [([97], 1)] 97 ⟨97, [97], [32, 49]⟩ (by decide)⟩

/-! ### Claim C3 machinery: strcmp is a total preorder -/

theorem strcmp_neg (x : List Nat) : ∀ y, strcmp x y = - strcmp y x := by
  induction x with
  | nil =>
    intro y
    cases y with
    | nil => rfl
    | cons b bs =>
      simp only [strcmp]
      split_ifs <;> omega
  | cons a as ih =>
    intro y
    cases y with
    | nil =>
      simp only [strcmp]
      split_ifs <;> omega
    | cons b bs =>
      simp only [strcmp]
      split_ifs <;> first | exact ih bs | omega

theorem strcmp_trans : ∀ (x y z : List Nat),
    strcmp x y ≤ 0 → strcmp y z ≤ 0 → strcmp x z ≤ 0 := by
  intro x
  induction x with
  | nil =>
    intro y z h1 h2
    cases z with
    | nil =>
      simp only [strcmp]
      omega
    | cons c cs =>
      simp only [strcmp]
      split_ifs <;> omega
  | cons a as ih =>
    intro y z h1 h2
    cases y with
    | nil =>
      cases z with
      | nil =>
        simp only [strcmp] at h1 ⊢
        split_ifs at h1 ⊢ <;> omega
      | cons c cs =>
        simp only [strcmp] at h1 h2 ⊢
        split_ifs at h1 h2 ⊢ <;> omega
    | cons b bs =>
      cases z with
      | nil =>
        simp only [strcmp] at h1 h2 ⊢
        split_ifs at h1 h2 ⊢ <;> omega
      | cons c cs =>
        simp only [strcmp] at h1 h2 ⊢
        split_ifs at h1 h2 ⊢ <;> first | exact ih bs cs h1 h2 | omega

theorem strcmp_total (x y : List Nat) : strcmp x y ≤ 0 ∨ strcmp y x ≤ 0 := by
  by_cases h : strcmp x y ≤ 0
  · exact Or.inl h
  · right
    rw [strcmp_neg y x]
    omega

/-- C3: in the report, every pair of adjacent records is in ascending
byte-wise (strcmp) order on the word field. -/
theorem c3_output_sorted (stream : List (List Nat)) :
    List.Chain' (fun a b => name_sort a b ≤ 0) (sort_by_name (processStream stream)) := by
  have hp : (sort_by_name (processStream stream)).Pairwise
      (fun a b => (decide (name_sort a b ≤ 0)) = true) := by
    rw [sort_by_name]
    refine List.sorted_mergeSort ?_ ?_ (processStream stream)
    · intro a b c hab hbc
      simp only [decide_eq_true_eq] at hab hbc ⊢
      exact strcmp_trans a.word b.word c.word hab hbc
    · intro a b
      simp only [Bool.or_eq_true, decide_eq_true_eq]
      exact strcmp_total a.word b.word
  have hp' : (sort_by_name (processStream stream)).Pairwise
      (fun a b => name_sort a b ≤ 0) :=
    hp.imp (fun h => by simpa using h)
  exact hp'.chain'

/-- C2: on the two-line input "Dogs chase cats.\n" / "Cats chase dogs!\n"
the complete output is exactly the lines "cats 1 2", "chase 1 2",
"dogs 1 2", in that order (shown as bytes, each with its newline). -/
theorem c2_scenario :
    mainOutput
      [[68, 111, 103, 115, 32, 99, 104, 97, 115, 101, 32, 99, 97, 116, 115, 46],
       [67, 97, 116, 115, 32, 99, 104, 97, 115, 101, 32, 100, 111, 103, 115, 33]] =
      [[99, 97, 116, 115, 32, 49, 32, 50, 10],
       [99, 104, 97, 115, 101, 32, 49, 32, 50, 10],
       [100, 111, 103, 115, 32, 49, 32, 50, 10]] := by
  have h1 : processStream
      [[68, 111, 103, 115, 32, 99, 104, 97, 115, 101, 32, 99, 97, 116, 115, 46],
       [67, 97, 116, 115, 32, 99, 104, 97, 115, 101, 32, 100, 111, 103, 115, 33]] =
      [⟨3089079, [100, 111, 103, 115], [32, 49, 32, 50]⟩,
       ⟨94623726, [99, 104, 97, 115, 101], [32, 49, 32, 50]⟩,
       ⟨3046237, [99, 97, 116, 115], [32, 49, 32, 50]⟩] := by decide
  rw [mainOutput, h1, sort_by_name]
  simp [List.mergeSort, List.splitInTwo, List.merge, name_sort, strcmp, print_results]

/-- C1 (amended): every maximal alphabetic/apostrophe run of length at
most 45 bytes, lowercased, is indexed under its hash in the final index,
and the record's line summary either contains a marker for the run's
1-based line or has reached the truncation threshold of 16519 bytes. -/
theorem c1_run_indexed_amended (stream : List (List Nat)) (i : Nat)
    (line run : List Nat) (hline : stream[i]? = some line)
    (hrun : run ∈ maximalRuns line) (hlen : run.length ≤ 45) :
    ∃ r, findKey (hash (run.map lowerByte)) (processStream stream) = some r ∧
      (marker (i + 1) <:+: r.line_summary ∨ 16519 ≤ r.line_summary.length) := by
  have hmem : (run.map lowerByte) ∈ tokens (normalizeLine line) := by
    rw [tokens_norm]
    exact List.mem_map_of_mem _ hrun
  have hlen' : (run.map lowerByte).length ≤ 45 := by
    rw [List.length_map]; exact hlen
  have h := processFrom_establishes hlen' stream i line [] 1 hline hmem
  rwa [Nat.add_comm 1 i] at h

theorem c1_run_indexed_amended_witness :
    (([[97]] : List (List Nat))[0]? = some [97]) ∧ ([97] ∈ maximalRuns [97]) ∧
      ([97] : List Nat).length ≤ 45 ∧
      ∃ r, findKey (hash (List.map lowerByte [97])) (processStream [[97]]) = some r ∧
        (marker (0 + 1) <:+: r.line_summary ∨ 16519 ≤ r.line_summary.length) :=
  ⟨rfl, by decide, by decide,
    c1_run_indexed_amended [[97]] 0 [97] [97] rfl (by decide) (by decide)⟩

/-! ### Decimal rendering vs. Nat.digits -/

theorem decAux_eq : ∀ (fuel n : Nat), n ≤ fuel →
    decAux fuel n = ((Nat.digits 10 n).map (fun d => d + 48)).reverse := by
  intro fuel
  induction fuel with
  | zero =>
    intro n h
    have hn : n = 0 := Nat.le_zero.mp h
    subst hn
    simp [decAux]
  | succ f ih =>
    intro n h
    rw [decAux]
    by_cases hn : n = 0
    · subst hn; simp
    · rw [if_neg hn]
      have hlt : n / 10 ≤ f := by
        have hd : n / 10 < n := Nat.div_lt_self (Nat.pos_of_ne_zero hn) (by omega)
        omega
      rw [ih _ hlt, Nat.digits_def' (by omega : (1:Nat) < 10) (Nat.pos_of_ne_zero hn),
        List.map_cons, List.reverse_cons]

theorem decimal_eq {n : Nat} (h : 0 < n) :
    decimal n = ((Nat.digits 10 n).map (fun d => d + 48)).reverse := by
  rw [decimal, if_neg (by omega)]
  exact decAux_eq n n (Nat.le_refl n)

theorem decimal_length {n : Nat} (h : 0 < n) :
    (decimal n).length = (Nat.digits 10 n).length := by
  rw [decimal_eq h, List.length_reverse, List.length_map]

theorem decimal_ge_48 {n : Nat} (h : 0 < n) : ∀ b ∈ decimal n, 48 ≤ b := by
  rw [decimal_eq h]
  intro b hb
  rw [List.mem_reverse] at hb
  obtain ⟨d, hd, rfl⟩ := List.mem_map.mp hb
  omega

theorem decimal_inj {n m : Nat} (hn : 0 < n) (hm : 0 < m)
    (h : decimal n = decimal m) : n = m := by
  rw [decimal_eq hn, decimal_eq hm] at h
  rw [List.reverse_inj] at h
  have h2 : Nat.digits 10 n = Nat.digits 10 m :=
    List.map_injective_iff.mpr (fun a b hab => by omega) h
  calc n = Nat.ofDigits 10 (Nat.digits 10 n) := (Nat.ofDigits_digits 10 n).symm
    _ = Nat.ofDigits 10 (Nat.digits 10 m) := by rw [h2]
    _ = m := Nat.ofDigits_digits 10 m

theorem decimal_len_le {j n : Nat} (hj : 0 < j) (hle : j ≤ n) :
    (decimal j).length ≤ (decimal n).length := by
  have hn : 0 < n := Nat.lt_of_lt_of_le hj hle
  rw [decimal_length hj, decimal_length hn,
    Nat.digits_len 10 j (by omega) (by omega), Nat.digits_len 10 n (by omega) (by omega)]
  have hlog := Nat.log_mono_right (b := 10) hle
  omega

/-! ### No false positive: a fresh marker is never a substring of a
summary made of markers of strictly smaller line numbers -/

def markersOf : List Nat → List Nat
  | [] => []
  | j :: t => marker j ++ markersOf t

theorem markersOf_append (l1 l2 : List Nat) :
    markersOf (l1 ++ l2) = markersOf l1 ++ markersOf l2 := by
  induction l1 with
  | nil => rfl
  | cons j t ih => rw [List.cons_append, markersOf, markersOf, ih, List.append_assoc]

theorem markersOf_shape (t : List Nat) :
    markersOf t = [] ∨ ∃ s, markersOf t = 32 :: s := by
  cases t with
  | nil => exact Or.inl rfl
  | cons j t => exact Or.inr ⟨decimal j ++ markersOf t, rfl⟩

theorem space_infix_skip : ∀ (d s q : List Nat), (∀ x ∈ d, ¬ x = 32) →
    (32 :: q <:+: d ++ s) → (32 :: q <:+: s) := by
  intro d
  induction d with
  | nil => intro s q h hi; simpa using hi
  | cons c d ih =>
    intro s q h hi
    rw [List.cons_append, List.infix_cons_iff] at hi
    rcases hi with hp | hi
    · exfalso
      rw [List.cons_prefix_cons] at hp
      exact h c (List.mem_cons_self c d) hp.1.symm
    · exact ih s q (fun x hx => h x (List.mem_cons_of_mem c hx)) hi

theorem prefix_before_space {p d s : List Nat} (hp : ∀ x ∈ p, ¬ x = 32)
    (h : p <+: d ++ 32 :: s) : p <+: d := by
  by_cases hlen : p.length ≤ d.length
  · exact List.prefix_of_prefix_length_le h (List.prefix_append d (32 :: s)) hlen
  · exfalso
    push_neg at hlen
    have hd : d <+: p :=
      List.prefix_of_prefix_length_le (List.prefix_append d (32 :: s)) h (by omega)
    obtain ⟨t, ht⟩ := hd
    have htne : t ≠ [] := by
      intro hteq
      rw [hteq, List.append_nil] at ht
      have hlen2 := congrArg List.length ht
      simp at hlen2
      omega
    obtain ⟨c, t', rfl⟩ : ∃ c t', t = c :: t' := by
      cases t with
      | nil => exact absurd rfl htne
      | cons c t' => exact ⟨c, t', rfl⟩
    rw [← ht] at h
    have h2 : c :: t' <+: 32 :: s := (List.prefix_append_right_inj d).mp h
    rw [List.cons_prefix_cons] at h2
    apply hp c ?_ h2.1
    rw [← ht]
    exact List.mem_append.mpr (Or.inr (List.mem_cons_self c t'))

theorem marker_not_infix : ∀ (l : List Nat) (n : Nat), 0 < n →
    (∀ j ∈ l, 0 < j ∧ j < n) → ¬ (marker n <:+: markersOf l) := by
  intro l
  induction l with
  | nil =>
    intro n hn hj hi
    rw [markersOf, List.infix_nil] at hi
    exact marker_ne_nil n hi
  | cons j t ih =>
    intro n hn hj hi
    have hjn := hj j (List.mem_cons_self j t)
    have hp48 : ∀ x ∈ decimal n, ¬ x = 32 := fun x hx => by
      have := decimal_ge_48 hn x hx; omega
    have hj48 : ∀ x ∈ decimal j, ¬ x = 32 := fun x hx => by
      have := decimal_ge_48 hjn.1 x hx; omega
    have hshape : markersOf (j :: t) = 32 :: (decimal j ++ markersOf t) := rfl
    rw [hshape, marker, List.infix_cons_iff] at hi
    rcases hi with hpre | hinf
    · rw [List.cons_prefix_cons] at hpre
      have hpre2 : decimal n <+: decimal j := by
        rcases markersOf_shape t with hsh | ⟨s, hsh⟩
        · rw [hsh, List.append_nil] at hpre
          exact hpre.2
        · rw [hsh] at hpre
          exact prefix_before_space hp48 hpre.2
      have hlen1 : (decimal n).length ≤ (decimal j).length := hpre2.length_le
      have hlen2 : (decimal j).length ≤ (decimal n).length :=
        decimal_len_le hjn.1 (by omega)
      have heq : decimal n = decimal j := hpre2.eq_of_length (by omega)
      have := decimal_inj hn hjn.1 heq
      omega
    · exact ih n hn (fun x hx => hj x (List.mem_cons_of_mem j hx))
        (space_infix_skip (decimal j) (markersOf t) (decimal n) hj48 hinf)

/-! ### The summary accumulated by a word occurring on every line -/

def flatMarkers : Nat → List Nat
  | 0 => []
  | n + 1 => flatMarkers n ++ marker (n + 1)

theorem flatMarkers_eq_markersOf : ∀ n, flatMarkers n = markersOf (List.range' 1 n) := by
  intro n
  induction n with
  | zero => rfl
  | succ k ih =>
    rw [flatMarkers, List.range'_concat, markersOf_append, ih]
    have h1 : markersOf [1 + 1 * k] = marker (k + 1) := by
      rw [markersOf, markersOf, List.append_nil]
      congr 1
      omega
    rw [h1]

theorem marker_not_infix_fm {n k : Nat} (hk : k < n) (hn : 0 < n) :
    ¬ (marker n <:+: flatMarkers k) := by
  rw [flatMarkers_eq_markersOf]
  apply marker_not_infix _ n hn
  intro j hj
  rw [List.mem_range'] at hj
  obtain ⟨i, hi, rfl⟩ := hj
  omega

def fmLen : Nat → Nat
  | 0 => 0
  | n + 1 => fmLen n + (marker (n + 1)).length

theorem flatMarkers_length : ∀ n, (flatMarkers n).length = fmLen n := by
  intro n
  induction n with
  | zero => rfl
  | succ k ih => rw [flatMarkers, fmLen, List.length_append, ih]

theorem fmLen_mono : ∀ {a b : Nat}, a ≤ b → fmLen a ≤ fmLen b := by
  intro a b h
  induction b with
  | zero =>
    have ha : a = 0 := by omega
    subst ha
    exact Nat.le_refl _
  | succ k ih =>
    by_cases hak : a ≤ k
    · exact Nat.le_trans (ih hak) (by rw [fmLen]; omega)
    · have ha : a = k + 1 := by omega
      subst ha
      exact Nat.le_refl _

theorem fmLen_succ_log (n : Nat) : fmLen (n + 1) = fmLen n + (2 + Nat.log 10 (n + 1)) := by
  rw [fmLen, marker, List.length_cons,
    decimal_length (by omega : 0 < n + 1),
    Nat.digits_len 10 (n + 1) (by omega) (by omega)]
  omega

theorem fmLen_interval : ∀ (c a k : Nat),
    (∀ j, a < j → j ≤ a + c → Nat.log 10 j = k) →
    fmLen (a + c) = fmLen a + c * (2 + k) := by
  intro c
  induction c with
  | zero => intro a k h; simp
  | succ d ih =>
    intro a k h
    have h1 : a + (d + 1) = (a + d) + 1 := by omega
    rw [h1, fmLen_succ_log (a + d),
      ih a k (fun j hj1 hj2 => h j hj1 (by omega)),
      h (a + d + 1) (by omega) (by omega)]
    ring

theorem fmLen_9 : fmLen 9 = 18 := by
  have h := fmLen_interval 9 0 0 (fun j h1 h2 => by
    apply Nat.log_eq_of_pow_le_of_lt_pow
    · norm_num
      omega
    · norm_num
      omega)
  have h0 : fmLen 0 = 0 := rfl
  rw [h0] at h
  norm_num at h
  exact h

theorem fmLen_99 : fmLen 99 = 288 := by
  have h := fmLen_interval 90 9 1 (fun j h1 h2 => by
    apply Nat.log_eq_of_pow_le_of_lt_pow
    · norm_num
      omega
    · norm_num
      omega)
  rw [fmLen_9] at h
  norm_num at h
  exact h

theorem fmLen_999 : fmLen 999 = 3888 := by
  have h := fmLen_interval 900 99 2 (fun j h1 h2 => by
    apply Nat.log_eq_of_pow_le_of_lt_pow
    · norm_num
      omega
    · norm_num
      omega)
  rw [fmLen_99] at h
  norm_num at h
  exact h

theorem fmLen_3525 : fmLen 3525 = 16518 := by
  have h := fmLen_interval 2526 999 3 (fun j h1 h2 => by
    apply Nat.log_eq_of_pow_le_of_lt_pow
    · norm_num
      omega
    · norm_num
      omega)
  rw [fmLen_999] at h
  norm_num at h
  exact h

theorem fmLen_3526 : fmLen 3526 = 16523 := by
  have h := fmLen_interval 2527 999 3 (fun j h1 h2 => by
    apply Nat.log_eq_of_pow_le_of_lt_pow
    · norm_num
      omega
    · norm_num
      omega)
  rw [fmLen_999] at h
  norm_num at h
  exact h

theorem updateSummary_append (s m : List Nat) (h1 : s.length < 16519)
    (h2 : ¬ m <:+: s) : updateSummary s m = s ++ m := by
  unfold updateSummary
  rw [summary_bound_eq, if_pos h1,
    if_neg (fun hb => h2 ((substr_iff m s).mp hb))]

def sumIter : List Nat → Nat → Nat → List Nat
  | s, _, 0 => s
  | s, n, m + 1 => sumIter (updateSummary s (marker n)) (n + 1) m

theorem sumIter_frozen : ∀ (m n : Nat) (s : List Nat), 16519 ≤ s.length →
    sumIter s n m = s := by
  intro m
  induction m with
  | zero => intro n s h; rfl
  | succ k ih =>
    intro n s h
    rw [sumIter, updateSummary_of_ge s _ h]
    exact ih (n + 1) s h

theorem sumIter_run : ∀ (m n : Nat), 0 < n → n ≤ 3526 →
    sumIter (flatMarkers n) (n + 1) m = flatMarkers (min (n + m) 3526) := by
  intro m
  induction m with
  | zero =>
    intro n h0 h6
    have hmin : min (n + 0) 3526 = n := by omega
    rw [hmin]
    rfl
  | succ k ih =>
    intro n h0 h6
    by_cases hn : n = 3526
    · subst hn
      have hmin : min (3526 + (k + 1)) 3526 = 3526 := by omega
      rw [sumIter_frozen _ _ _ (by rw [flatMarkers_length, fmLen_3526]; omega), hmin]
    · have hle : n ≤ 3525 := by omega
      rw [sumIter]
      have hlen : (flatMarkers n).length < 16519 := by
        rw [flatMarkers_length]
        have hm := fmLen_mono hle
        rw [fmLen_3525] at hm
        omega
      have hsub : ¬ (marker (n + 1) <:+: flatMarkers n) :=
        marker_not_infix_fm (by omega) (by omega)
      rw [updateSummary_append _ _ hlen hsub,
        show flatMarkers n ++ marker (n + 1) = flatMarkers (n + 1) from rfl,
        ih (n + 1) (by omega) (by omega)]
      congr 1
      omega

/-! ### Running the program on 3527 lines reading "a" -/

theorem processLine_a (rs : List result_struct) (n : Nat) :
    processLine rs n [97] = upsert [97] n rs := by
  have ht : tokens (normalizeLine [97]) = [[97]] := by decide
  rw [processLine, ht]
  rfl

theorem upsert_a (s : List Nat) (n : Nat) :
    upsert [97] n [⟨97, [97], s⟩] = [⟨97, [97], updateSummary s (marker n)⟩] := by
  have hfind : findKey (hash [97]) [(⟨97, [97], s⟩ : result_struct)] =
      some ⟨97, [97], s⟩ := rfl
  rw [upsert, add_result_some _ (by decide) hfind, updateFirst_singleton
    (show ((⟨97, [97], s⟩ : result_struct).key == hash [97]) = true from rfl)]
  rfl

theorem processFrom_a : ∀ (m : Nat) (s : List Nat) (n : Nat),
    processFrom [⟨97, [97], s⟩] n (List.replicate m [97]) =
      [⟨97, [97], sumIter s n m⟩] := by
  intro m
  induction m with
  | zero => intro s n; rfl
  | succ k ih =>
    intro s n
    rw [List.replicate_succ, processFrom, processLine_a, upsert_a, ih]
    rfl

theorem run_a :
    processStream (List.replicate 3527 [97]) = [⟨97, [97], flatMarkers 3526⟩] := by
  have h0 : List.replicate 3527 ([97] : List Nat) = [97] :: List.replicate 3526 [97] :=
    List.replicate_succ ..
  rw [processStream, h0, processFrom, processLine_a]
  have h1 : upsert [97] 1 [] = [⟨97, [97], marker 1⟩] := by
    have hn : findKey (hash [97]) ([] : List result_struct) = none := rfl
    rw [upsert, add_result_none _ (by decide) hn,
      updateSummary_nil _ (marker_ne_nil 1)]
    rfl
  rw [h1]
  have h2 : marker 1 = flatMarkers 1 := by
    rw [show flatMarkers 1 = flatMarkers 0 ++ marker 1 from rfl]
    rfl
  rw [h2, processFrom_a]
  have h3 : sumIter (flatMarkers 1) 2 3526 = flatMarkers 3526 := by
    have hrun := sumIter_run 3526 1 (by omega) (by omega)
    have hmin : min (1 + 3526) 3526 = 3526 := by omega
    rw [hmin] at hrun
    exact hrun
  rw [h3]

/-- C1 (counterexample): on a stream of 3527 lines each reading "a", the
run "a" on the last line (1-based line 3527, index 3526) is of length 1,
yet the record stored under its hash does not contain the marker " 3527"
in its line summary - truncation has frozen the summary at 16523 bytes. -/
theorem c1_run_indexed_counterexample :
    ((List.replicate 3527 ([97] : List Nat))[3526]? = some [97]) ∧
      ([97] ∈ maximalRuns [97]) ∧ ([97] : List Nat).length ≤ 45 ∧
      ∃ r, findKey (hash (List.map lowerByte [97]))
          (processStream (List.replicate 3527 [97])) = some r ∧
        ¬ (marker (3526 + 1) <:+: r.line_summary) := by
  refine ⟨?_, by decide, by decide, ?_⟩
  · rw [List.getElem?_replicate, if_pos (by omega)]
  · refine ⟨⟨97, [97], flatMarkers 3526⟩, ?_, ?_⟩
    · rw [run_a]
      rfl
    · show ¬ (marker 3527 <:+: flatMarkers 3526)
      exact marker_not_infix_fm (by omega) (by omega)

end HolaTokens
